import Mathlib

/-!
Verification development for `SelectiveBackPropagation`
(`src/selective_back_propagation.py`).

Shallow embedding conventions:
* Python floats (losses, percentile cut-points, probabilities, random
  draws) are modelled exactly as rationals `ℚ`.
* `numpy` arrays and Python lists are modelled as `List`s; in-bounds
  indexing `a[i]` is modelled as `List.getD i d` (all claims only ever
  look at in-bounds positions).
* Python's `sorted` and `numpy`'s internal sort are stable sorts; any
  stable sort by a total preorder produces the same list, so they are
  modelled with Mathlib's stable `List.insertionSort`.
* `np.percentile(h, q)` (default linear interpolation) at integer rank
  `q` is `s[i] + g * (s[i+1] - s[i])` where `s` is `h` sorted,
  `pos = q * (len(h) - 1) / 100`, `i = floor pos`, `g = pos - i`.
* The source raises (`IndexError` inside `np.percentile` or on
  `sorted_loss_idx[0]`) when the history or the query list is empty;
  the embedding is total but is only ever used, in the claims, with the
  non-emptiness hypotheses under which the source is defined.
-/

set_option maxRecDepth 100000

namespace SelectiveBackProp

/-- Linear interpolation of a sorted data list at fractional position
`t`: `s[i] + (t - i) * (s[i+1] - s[i])` with `i = floor t` (the value at
`i+1` falls back to `s[i]` when out of range, which only happens with a
zero fractional part). -/
def interpAt (s : List ℚ) (t : ℚ) : ℚ :=
  let i : ℕ := (⌊t⌋).toNat
  let g : ℚ := t - (i : ℚ)
  s.getD i 0 + g * (s.getD (i + 1) (s.getD i 0) - s.getD i 0)

/-- `np.percentile(hist_values, q)` for an integer rank `q` (default
linear interpolation between order statistics of the sorted data, at
position `q/100 * (len - 1)`), as used at line 161 of the source:
`np.percentile(hist_values, range(100))`. -/
def npPercentile (hist_values : List ℚ) (q : ℕ) : ℚ :=
  let s := hist_values.insertionSort (· ≤ ·)
  interpAt s ((q : ℚ) * ((s.length : ℚ) - 1) / 100)

/-- `percentiles_values = np.percentile(hist_values, range(100))`. -/
def cutPoints (hist_values : List ℚ) : List ℚ :=
  (List.range 100).map (npPercentile hist_values)

/-- The sort key relation used by `sorted_loss_idx`:
`key=lambda k: values_to_search[k]`, compared ascending. -/
def sortKey (values_to_search : List ℚ) (i j : ℕ) : Prop :=
  values_to_search.getD i 0 ≤ values_to_search.getD j 0

def sortKeyDec (values_to_search : List ℚ) : DecidableRel (sortKey values_to_search) :=
  fun i j => inferInstanceAs (Decidable (values_to_search.getD i 0 ≤ values_to_search.getD j 0))

/-- `sorted_loss_idx = sorted(range(len(values_to_search)), key=lambda k: values_to_search[k])`:
a stable sort of the positions of `values_to_search`, ascending by value. -/
def sortedLossIdx (values_to_search : List ℚ) : List ℕ :=
  @List.insertionSort ℕ (sortKey values_to_search) (sortKeyDec values_to_search)
    (List.range values_to_search.length)

/-- The inner `while` loop of `_percentiles` (lines 166-170): advance the
cursor through the sorted query order while the query value is strictly
below the current cut-point, writing the cut-point's index into
`percentiles_by_loss`.  The cursor is represented by the remaining
suffix of `sorted_loss_idx`; the `counter == len` break corresponds to
that suffix becoming empty. -/
def whileLoop (values : List ℚ) (pv : ℚ) (idx : ℕ) :
    List ℕ → List ℕ → List ℕ × List ℕ
  | [], arr => ([], arr)
  | c :: rest, arr =>
    if values.getD c 0 < pv then whileLoop values pv idx rest (arr.set c idx)
    else (c :: rest, arr)

/-- The outer `for idx, percentiles_value in enumerate(percentiles_values)`
loop of `_percentiles` (lines 165-172), including the
`if counter == len(values_to_search): break`. -/
def walkLoop (values : List ℚ) : List ℚ → ℕ → List ℕ → List ℕ → List ℕ
  | [], _, _, arr => arr
  | pv :: pvs, idx, rem, arr =>
    let r := whileLoop values pv idx rem arr
    if r.1 = [] then r.2 else walkLoop values pvs (idx + 1) r.1 r.2

/-- `_percentiles` before the final division: the `percentiles_by_loss`
array (initialised to `[0] * len(values_to_search)`) after the walk. -/
def percentilesArr (hist_values values_to_search : List ℚ) : List ℕ :=
  walkLoop values_to_search (cutPoints hist_values) 0 (sortedLossIdx values_to_search)
    (List.replicate values_to_search.length 0)

/-- `_percentiles(hist_values, values_to_search)` (lines 153-173):
`np.array(percentiles_by_loss) / 100`. -/
def percentiles (hist_values values_to_search : List ℚ) : List ℚ :=
  (percentilesArr hist_values values_to_search).map (fun r : ℕ => (r : ℚ) / 100)

/-- The effect of one inner `while` run on `percentiles_by_loss`:
every consumed cursor position is overwritten with `idx`. -/
def setAll (idx : ℕ) : List ℕ → List ℕ → List ℕ
  | [], arr => arr
  | c :: cs, arr => setAll idx cs (arr.set c idx)

/-! ### The orchestrator `SelectiveBackPropagation`

State and configuration of the class.  Collaborators are modelled as
pure functions: `model` is the forward pass on a stacked batch (the
`model.train()` / `model.eval()` mode switches have no observable effect
in this model), `compute_losses_func` maps predictions and stacked
targets to the per-example loss list, and each invocation of
`update_weights_func` is recorded, together with the stacked
`(selected_inputs, selected_targets)` pair that produced its argument,
in a `fires` log returned by the step (the update function itself
returns nothing the orchestrator uses).  `data[idx, ...].detach().clone()`
is element extraction, `torch.stack` of the accumulated list is the list
itself, and `np.random.random` is an explicit list of draws supplied to
the step. -/

structure SBPConfig (γ α β : Type) where
  compute_losses_func : γ → List β → List ℚ
  batch_size : ℕ
  epoch_length : ℕ
  loss_selection_threshold : Option ℚ
  model : List α → γ

structure SBPState (α β : Type) where
  loss_hist : List ℚ
  selected_inputs : List α
  selected_targets : List β

/-- The state produced by `__init__` (lines 98-103): empty history,
empty accumulator lists. -/
def SBPState.initial (α β : Type) : SBPState α β := ⟨[], [], []⟩

/-- One incoming batch handed to `selective_back_propagation`:
per-example losses, input rows, target rows, and the uniform draws of
`np.random.random` (one per example, each in `[0,1)`). -/
structure SBPCall (α β : Type) where
  loss_per_img : List ℚ
  data : List α
  targets : List β
  draws : List ℚ

/-- `self.loss_hist.extend(cpu_losses.tolist())` on a
`deque(maxlen=maxlen)`: append all values, evicting from the head while
over capacity; the result is the last `maxlen` values of the
concatenation. -/
def dequeExtend (maxlen : ℕ) (hist new : List ℚ) : List ℚ :=
  let l := hist ++ new
  l.drop (l.length - maxlen)

/-- `_get_selection_probabilities(self, loss)` (lines 149-151):
`self._percentiles(self.loss_hist, loss) ** 2` element-wise. -/
def get_selection_probabilities (loss_hist loss : List ℚ) : List ℚ :=
  (percentiles loss_hist loss).map (fun r : ℚ => r ^ 2)

/-- `selection = selection_probabilities > np.random.random(*shape)`
(line 119): element-wise strict comparison against the uniform draws. -/
def probabilisticSelection (probs draws : List ℚ) : List Bool :=
  List.zipWith (fun p d => decide (d < p)) probs draws

/-- Lines 121-123: `if self.loss_selection_threshold:` (Python
truthiness: `False` and `0.0` are falsy, any other float truthy), then
`selection = np.logical_or(np_cpu_losses > threshold, selection)`. -/
def applyThreshold (thr : Option ℚ) (losses : List ℚ) (selection : List Bool) : List Bool :=
  match thr with
  | none => selection
  | some t =>
      if t = 0 then selection
      else List.zipWith (fun h s => h || s) (losses.map (fun l : ℚ => decide (t < l))) selection

/-- The final boolean selection mask of one call, computed against the
already-updated history. -/
def selectionOf (thr : Option ℚ) (loss_hist losses draws : List ℚ) : List Bool :=
  applyThreshold thr losses (probabilisticSelection (get_selection_probabilities loss_hist losses) draws)

/-- `np.argwhere(selection).flatten()`: the positions of the `True`
entries, in ascending order. -/
def argwhereIdx (selection : List Bool) : List ℕ :=
  (List.range selection.length).filter (fun i => selection.getD i false)

def listMean (l : List ℚ) : ℚ := l.sum / (l.length : ℚ)

/-- The `for idx in np.argwhere(selection).flatten():` loop (lines
126-141).  Arguments after `targets`: remaining selected indices, the
accumulator lists `selected_inputs` / `selected_targets`, the current
`effective_batch_loss` (`none` = Python `None`) and the fire log.
Returns the final accumulator lists, `effective_batch_loss`, and the
fire log. -/
def sbpLoop {γ α β : Type} [Inhabited α] [Inhabited β] (cfg : SBPConfig γ α β)
    (data : List α) (targets : List β) :
    List ℕ → List α → List β → Option ℚ → List (List α × List β) →
      List α × List β × Option ℚ × List (List α × List β)
  | [], selIn, selTgt, ebl, fires => (selIn, selTgt, ebl, fires)
  | idx :: rest, selIn, selTgt, ebl, fires =>
      let selIn' := selIn ++ [data.getD idx default]
      let selTgt' := selTgt ++ [targets.getD idx default]
      if selTgt'.length = cfg.batch_size then
        let lossList := cfg.compute_losses_func (cfg.model selIn') selTgt'
        sbpLoop cfg data targets rest [] [] (some (listMean lossList))
          (fires ++ [(selIn', selTgt')])
      else
        sbpLoop cfg data targets rest selIn' selTgt' ebl fires

/-- The updated history of one call: the `extend` at line 115 happens
before the percentile computation. -/
def stepHist {γ α β : Type} (cfg : SBPConfig γ α β) (st : SBPState α β) (c : SBPCall α β) :
    List ℚ :=
  dequeExtend (cfg.batch_size * cfg.epoch_length) st.loss_hist c.loss_per_img

def stepSelection {γ α β : Type} (cfg : SBPConfig γ α β) (st : SBPState α β) (c : SBPCall α β) :
    List Bool :=
  selectionOf cfg.loss_selection_threshold (stepHist cfg st c) c.loss_per_img c.draws

def stepSelectedIdx {γ α β : Type} (cfg : SBPConfig γ α β) (st : SBPState α β) (c : SBPCall α β) :
    List ℕ :=
  argwhereIdx (stepSelection cfg st c)

/-- `selective_back_propagation(self, loss_per_img, data, targets)`
(lines 105-147).  Returns the updated state, the fire log (one entry —
the stacked accumulator contents — per invocation of
`update_weights_func`) and the returned `effective_batch_loss`
(`none` models the `None` returned when no mini-batch fired). -/
def selective_back_propagation {γ α β : Type} [Inhabited α] [Inhabited β]
    (cfg : SBPConfig γ α β) (st : SBPState α β) (c : SBPCall α β) :
    SBPState α β × List (List α × List β) × Option ℚ :=
  let r := sbpLoop cfg c.data c.targets (stepSelectedIdx cfg st c)
    st.selected_inputs st.selected_targets none []
  (⟨stepHist cfg st c, r.1, r.2.1⟩, r.2.2.2, r.2.2.1)

/-- A sequence of calls: final state plus the concatenated fire log. -/
def sbpRun {γ α β : Type} [Inhabited α] [Inhabited β] (cfg : SBPConfig γ α β) :
    SBPState α β → List (SBPCall α β) → SBPState α β × List (List α × List β)
  | st, [] => (st, [])
  | st, c :: cs =>
      let r := selective_back_propagation cfg st c
      let rest := sbpRun cfg r.1 cs
      (rest.1, r.2.1 ++ rest.2)

/-- The examples selected by one call, in selection order. -/
def callSelected {γ α β : Type} [Inhabited α] [Inhabited β] (cfg : SBPConfig γ α β)
    (st : SBPState α β) (c : SBPCall α β) : List (α × β) :=
  (stepSelectedIdx cfg st c).map (fun i => (c.data.getD i default, c.targets.getD i default))

/-- All examples selected across a sequence of calls, in order. -/
def sbpRunSelected {γ α β : Type} [Inhabited α] [Inhabited β] (cfg : SBPConfig γ α β) :
    SBPState α β → List (SBPCall α β) → List (α × β)
  | _, [] => []
  | st, c :: cs =>
      callSelected cfg st c ++ sbpRunSelected cfg (selective_back_propagation cfg st c).1 cs

/-! ### Construction (`__init__`, lines 54-103)

The constructor body only stores its arguments and creates
`deque([], maxlen=batch_size * epoch_length)`; it performs no
validation of its own.  The only failing path is CPython's `deque`,
which raises `ValueError` exactly when the supplied `maxlen` is
negative.  `batch_size` and `epoch_length` are modelled as `ℤ` so that
non-positive configurations can be expressed. -/

structure SBPInstance where
  batch_size : ℤ
  epoch_length : ℤ
  loss_selection_threshold : Option ℚ
  loss_hist_maxlen : ℕ

/-- `deque([], maxlen=m)`: raises `ValueError: maxlen must be non-negative`
iff `m < 0`. -/
def dequeNew (m : ℤ) : Except String ℕ :=
  if m < 0 then Except.error "maxlen must be non-negative" else Except.ok m.toNat

/-- `SelectiveBackPropagation.__init__`: store the configuration and
create the loss-history deque. -/
def sbpInit (batch_size epoch_length : ℤ) (loss_selection_threshold : Option ℚ) :
    Except String SBPInstance :=
  (dequeNew (batch_size * epoch_length)).map
    (fun m => ⟨batch_size, epoch_length, loss_selection_threshold, m⟩)

/-- The last `k` elements of a list (used to state the FIFO property of
the bounded history). -/
def takeLast (k : ℕ) (l : List ℚ) : List ℚ := l.drop (l.length - k)

/-- Concrete configuration used by witnesses: batch size 1, epoch
length 2, no threshold; the model is the identity on the stacked batch
and the loss function returns the predictions. -/
def sbpCfg0 : SBPConfig (List ℚ) ℚ ℚ :=
  ⟨fun preds _ => preds, 1, 2, none, fun l => l⟩

/-- Concrete call used by witnesses: two examples with losses `[1, 5]`;
the draws select exactly the first example (rank of `1` is `0.01`, so
probability `0.0001 > 0`; rank of `5` is `0`, probability `0`). -/
def sbpCall0 : SBPCall ℚ ℚ := ⟨[1, 5], [10, 20], [100, 200], [0, 1]⟩

/-! ### Walk characterisation

The cursor walk of `_percentiles` assigns, to each query that is ever
dequeued, the index of the first cut-point strictly above it (offset by
the running `idx`); queries never dequeued keep the initial value of
`percentiles_by_loss`.  This is proved below without assuming anything
about the cut-point list beyond the sortedness of the query order. -/

lemma length_setAll (idx : ℕ) : ∀ (cs arr : List ℕ), (setAll idx cs arr).length = arr.length
  | [], _ => rfl
  | c :: cs, arr => by
      rw [setAll, length_setAll idx cs, List.length_set]

lemma getD_set_ne {arr : List ℕ} {a c : ℕ} (v : ℕ) (h : a ≠ c) :
    (arr.set a v).getD c 0 = arr.getD c 0 := by
  simp [List.getD_eq_getElem?_getD, List.getElem?_set, h]

lemma getD_set_self {arr : List ℕ} {c : ℕ} (v : ℕ) (h : c < arr.length) :
    (arr.set c v).getD c 0 = v := by
  simp [List.getD_eq_getElem?_getD, List.getElem?_set, h]

lemma getD_setAll_of_not_mem (idx : ℕ) :
    ∀ {cs : List ℕ} (arr : List ℕ) {c : ℕ}, c ∉ cs →
      (setAll idx cs arr).getD c 0 = arr.getD c 0
  | [], _, _, _ => rfl
  | a :: cs, arr, c, h => by
      rw [setAll, getD_setAll_of_not_mem idx _ (fun hm => h (List.mem_cons_of_mem a hm)),
        getD_set_ne idx (fun he => h (List.mem_cons.mpr (Or.inl he.symm)))]

lemma getD_setAll_of_mem (idx : ℕ) :
    ∀ {cs : List ℕ} (arr : List ℕ) {c : ℕ}, cs.Nodup → c ∈ cs → c < arr.length →
      (setAll idx cs arr).getD c 0 = idx
  | [], _, _, _, hm, _ => absurd hm (List.not_mem_nil _)
  | a :: cs, arr, c, hnd, hm, hlen => by
      rcases List.mem_cons.mp hm with rfl | hm
      · rw [setAll, getD_setAll_of_not_mem idx _ (List.nodup_cons.mp hnd).1,
          getD_set_self idx hlen]
      · exact (getD_setAll_of_mem idx _ (List.nodup_cons.mp hnd).2 hm
          (by rw [List.length_set]; exact hlen)).trans rfl

lemma whileLoop_eq (values : List ℚ) (pv : ℚ) (idx : ℕ) :
    ∀ (rem : List ℕ) (arr : List ℕ),
      whileLoop values pv idx rem arr =
        (rem.dropWhile (fun c => decide (values.getD c 0 < pv)),
         setAll idx (rem.takeWhile (fun c => decide (values.getD c 0 < pv))) arr)
  | [], arr => rfl
  | c :: rest, arr => by
      by_cases h : values.getD c 0 < pv
      · simp only [whileLoop, if_pos h, List.dropWhile_cons, List.takeWhile_cons,
          decide_eq_true h, whileLoop_eq values pv idx rest]
        rfl
      · simp only [whileLoop, if_neg h, List.dropWhile_cons, List.takeWhile_cons,
          decide_eq_false h]
        rfl

lemma walkLoop_length (values : List ℚ) :
    ∀ (pvs : List ℚ) (idx : ℕ) (rem arr : List ℕ),
      (walkLoop values pvs idx rem arr).length = arr.length
  | [], _, _, _ => rfl
  | pv :: pvs, idx, rem, arr => by
      simp only [walkLoop, whileLoop_eq]
      by_cases h : rem.dropWhile (fun c => decide (values.getD c 0 < pv)) = []
      · rw [if_pos h, length_setAll]
      · rw [if_neg h, walkLoop_length values pvs, length_setAll]

lemma walkLoop_getD_of_not_mem (values : List ℚ) :
    ∀ (pvs : List ℚ) (idx : ℕ) (rem arr : List ℕ) {c : ℕ}, c ∉ rem →
      (walkLoop values pvs idx rem arr).getD c 0 = arr.getD c 0
  | [], _, _, _, _, _ => rfl
  | pv :: pvs, idx, rem, arr, c, hc => by
      have hT : c ∉ rem.takeWhile (fun c => decide (values.getD c 0 < pv)) :=
        fun hm => hc ((List.takeWhile_sublist _).mem hm)
      have hD : c ∉ rem.dropWhile (fun c => decide (values.getD c 0 < pv)) :=
        fun hm => hc ((List.dropWhile_sublist _).mem hm)
      simp only [walkLoop, whileLoop_eq]
      by_cases h : rem.dropWhile (fun c => decide (values.getD c 0 < pv)) = []
      · rw [if_pos h]
        exact getD_setAll_of_not_mem idx arr hT
      · rw [if_neg h, walkLoop_getD_of_not_mem values pvs _ _ _ hD]
        exact getD_setAll_of_not_mem idx arr hT

/-- In the `dropWhile` suffix of a weakly increasing position list, no
position's value is below the cut-point (this is where sortedness of the
query order matters). -/
lemma not_lt_of_mem_dropWhile {values : List ℚ} {pv : ℚ} :
    ∀ {rem : List ℕ}, rem.Pairwise (sortKey values) →
      ∀ c ∈ rem.dropWhile (fun c => decide (values.getD c 0 < pv)),
        ¬ values.getD c 0 < pv
  | [], _, c, hc => absurd hc (List.not_mem_nil c)
  | a :: rest, hp, c, hc => by
      rcases List.pairwise_cons.mp hp with ⟨ha, hrest⟩
      by_cases h : values.getD a 0 < pv
      · rw [List.dropWhile_cons, if_pos (by simpa using h)] at hc
        exact not_lt_of_mem_dropWhile hrest c hc
      · rw [List.dropWhile_cons, if_neg (by simpa using h)] at hc
        rcases List.mem_cons.mp hc with rfl | hc
        · exact h
        · exact fun hlt => h (lt_of_le_of_lt (ha c hc) hlt)

/-- Characterisation of the walk: for every position `c` still in the
cursor list, the final `percentiles_by_loss[c]` is the index (offset by
`idx`) of the first cut-point strictly greater than `values[c]`, or the
previous array value if no such cut-point exists. -/
lemma walkLoop_getD_of_mem (values : List ℚ) :
    ∀ (pvs : List ℚ) (idx : ℕ) (rem arr : List ℕ),
      rem.Nodup → rem.Pairwise (sortKey values) → (∀ c ∈ rem, c < arr.length) →
      ∀ c ∈ rem,
        (walkLoop values pvs idx rem arr).getD c 0 =
          (pvs.findIdx? (fun p => decide (values.getD c 0 < p)) idx).getD (arr.getD c 0)
  | [], idx, rem, arr, _, _, _, c, hc => by simp [walkLoop, List.findIdx?]
  | pv :: pvs, idx, rem, arr, hnd, hp, hbound, c, hc => by
      have hsplit := List.takeWhile_append_dropWhile
        (p := fun c => decide (values.getD c 0 < pv)) (l := rem)
      have hnd' : (rem.takeWhile (fun c => decide (values.getD c 0 < pv)) ++
          rem.dropWhile (fun c => decide (values.getD c 0 < pv))).Nodup := hsplit.symm ▸ hnd
      rcases List.nodup_append.mp hnd' with ⟨hndT, hndD, hdisj⟩
      simp only [walkLoop, whileLoop_eq]
      by_cases hD : rem.dropWhile (fun c => decide (values.getD c 0 < pv)) = []
      · rw [if_pos hD]
        have hcT : c ∈ rem.takeWhile (fun c => decide (values.getD c 0 < pv)) := by
          have := hsplit.symm ▸ hc
          rw [hD, List.append_nil] at this; exact this
        have hcv : values.getD c 0 < pv := by
          simpa using List.mem_takeWhile_imp hcT
        rw [List.findIdx?_cons, if_pos (decide_eq_true hcv)]
        exact getD_setAll_of_mem idx arr hndT hcT (hbound c hc)
      · rw [if_neg hD]
        rcases List.mem_append.mp (hsplit.symm ▸ hc) with hcT | hcD
        · have hcv : values.getD c 0 < pv := by
            simpa using List.mem_takeWhile_imp hcT
          have hcD' : c ∉ rem.dropWhile (fun c => decide (values.getD c 0 < pv)) :=
            fun hm => hdisj hcT hm
          rw [List.findIdx?_cons, if_pos (decide_eq_true hcv),
            walkLoop_getD_of_not_mem values pvs _ _ _ hcD']
          exact getD_setAll_of_mem idx arr hndT hcT (hbound c hc)
        · have hcv : ¬ values.getD c 0 < pv := not_lt_of_mem_dropWhile hp c hcD
          have hcT' : c ∉ rem.takeWhile (fun c => decide (values.getD c 0 < pv)) :=
            fun hm => hdisj hm hcD
          rw [List.findIdx?_cons, if_neg (by simp only [decide_eq_true_eq]; exact hcv)]
          have hrec := walkLoop_getD_of_mem values pvs (idx + 1)
            (rem.dropWhile (fun c => decide (values.getD c 0 < pv)))
            (setAll idx (rem.takeWhile (fun c => decide (values.getD c 0 < pv))) arr)
            hndD (hp.sublist (List.dropWhile_sublist _))
            (fun c hm => by
              rw [length_setAll]
              exact hbound c ((List.dropWhile_sublist _).mem hm))
            c hcD
          rw [hrec, getD_setAll_of_not_mem idx arr hcT']

/-! ### The sorted index list -/

lemma sortedLossIdx_perm (values : List ℚ) :
    List.Perm (sortedLossIdx values) (List.range values.length) :=
  @List.perm_insertionSort ℕ (sortKey values) (sortKeyDec values) (List.range values.length)

lemma mem_sortedLossIdx {values : List ℚ} {c : ℕ} :
    c ∈ sortedLossIdx values ↔ c < values.length := by
  rw [(sortedLossIdx_perm values).mem_iff, List.mem_range]

lemma sortedLossIdx_nodup (values : List ℚ) : (sortedLossIdx values).Nodup :=
  (List.nodup_range _).perm (sortedLossIdx_perm values).symm

lemma sortedLossIdx_pairwise (values : List ℚ) :
    (sortedLossIdx values).Pairwise (sortKey values) := by
  haveI : IsTotal ℕ (sortKey values) := ⟨fun a b => le_total _ _⟩
  haveI : IsTrans ℕ (sortKey values) := ⟨fun a b c h1 h2 => le_trans h1 h2⟩
  exact @List.sorted_insertionSort ℕ (sortKey values) (sortKeyDec values) _ _
    (List.range values.length)

/-! ### `findIdx?` helpers -/

lemma getD_replicate_zero (n c : ℕ) : (List.replicate n (0 : ℕ)).getD c 0 = 0 := by
  rw [List.getD_eq_getElem?_getD, List.getElem?_replicate]
  split <;> rfl

lemma findIdx?_start_le {α : Type} (p : α → Bool) :
    ∀ (l : List α) (i j : ℕ), l.findIdx? p i = some j → i ≤ j
  | [], i, j, h => by simp [List.findIdx?] at h
  | a :: l, i, j, h => by
      rw [List.findIdx?_cons] at h
      by_cases hp : p a = true
      · rw [if_pos hp] at h; cases h; exact Nat.le_refl _
      · rw [if_neg hp] at h
        exact Nat.le_trans (Nat.le_succ i) (findIdx?_start_le p l (i + 1) j h)

lemma findIdx?_lt_add {α : Type} (p : α → Bool) :
    ∀ (l : List α) (i j : ℕ), l.findIdx? p i = some j → j < i + l.length
  | [], i, j, h => by simp [List.findIdx?] at h
  | a :: l, i, j, h => by
      rw [List.findIdx?_cons] at h
      by_cases hp : p a = true
      · rw [if_pos hp] at h; cases h; simp
      · rw [if_neg hp] at h
        have := findIdx?_lt_add p l (i + 1) j h
        simp only [List.length_cons]
        omega

/-- If predicate `q` implies predicate `p` pointwise, the first index
satisfying `p` is at most the first index satisfying `q`. -/
lemma findIdx?_mono {α : Type} {p q : α → Bool} (himp : ∀ a, q a = true → p a = true) :
    ∀ (l : List α) (i jq : ℕ), l.findIdx? q i = some jq →
      ∃ jp, l.findIdx? p i = some jp ∧ jp ≤ jq
  | [], i, jq, h => by simp [List.findIdx?] at h
  | a :: l, i, jq, h => by
      rw [List.findIdx?_cons] at h
      by_cases hpa : p a = true
      · refine ⟨i, by rw [List.findIdx?_cons, if_pos hpa], ?_⟩
        by_cases hqa : q a = true
        · rw [if_pos hqa] at h; cases h; exact Nat.le_refl _
        · rw [if_neg hqa] at h
          exact Nat.le_trans (Nat.le_succ i) (findIdx?_start_le q l (i + 1) jq h)
      · have hqa : ¬ q a = true := fun hq => hpa (himp a hq)
        rw [if_neg hqa] at h
        rw [List.findIdx?_cons, if_neg hpa]
        exact findIdx?_mono himp l (i + 1) jq h

/-! ### Characterisation of `_percentiles` -/

lemma cutPoints_length (hist : List ℚ) : (cutPoints hist).length = 100 := by
  rw [cutPoints, List.length_map, List.length_range]

/-- The rank that `_percentiles` assigns to the query at position `c` is
the index of the first percentile cut-point strictly above the query
value, or the default `0` when every cut-point is `≤` the value. -/
theorem percentilesArr_getD (hist values : List ℚ) {c : ℕ} (hc : c < values.length) :
    (percentilesArr hist values).getD c 0 =
      ((cutPoints hist).findIdx? (fun p => decide (values.getD c 0 < p)) 0).getD 0 := by
  have hmem : c ∈ sortedLossIdx values := mem_sortedLossIdx.mpr hc
  have h := walkLoop_getD_of_mem values (cutPoints hist) 0 (sortedLossIdx values)
    (List.replicate values.length 0) (sortedLossIdx_nodup values) (sortedLossIdx_pairwise values)
    (fun c hm => by rw [List.length_replicate]; exact mem_sortedLossIdx.mp hm) c hmem
  rw [percentilesArr, h, getD_replicate_zero]

theorem percentilesArr_length (hist values : List ℚ) :
    (percentilesArr hist values).length = values.length := by
  rw [percentilesArr, walkLoop_length, List.length_replicate]

theorem percentiles_length (hist values : List ℚ) :
    (percentiles hist values).length = values.length := by
  rw [percentiles, List.length_map, percentilesArr_length]

theorem percentiles_getD (hist values : List ℚ) {c : ℕ} (hc : c < values.length) :
    (percentiles hist values).getD c 0 =
      ((percentilesArr hist values).getD c 0 : ℚ) / 100 := by
  have hlen : c < (percentilesArr hist values).length := by
    rw [percentilesArr_length]; exact hc
  rw [percentiles, List.getD_eq_getElem _ _ (by simpa using hlen), List.getElem_map,
    List.getD_eq_getElem _ _ hlen]

theorem percentilesArr_getD_le (hist values : List ℚ) {c : ℕ} (hc : c < values.length) :
    (percentilesArr hist values).getD c 0 ≤ 99 := by
  rw [percentilesArr_getD hist values hc]
  cases hfi : (cutPoints hist).findIdx? (fun p => decide (values.getD c 0 < p)) 0 with
  | none => simp
  | some j =>
      have := findIdx?_lt_add _ _ _ _ hfi
      rw [cutPoints_length] at this
      simpa using Nat.lt_succ_iff.mp (by omega)

/-! ### Monotonicity of the percentile cut-points -/

lemma sorted_getD_mono {s : List ℚ} (hs : s.Sorted (· ≤ ·)) {a b : ℕ} (hab : a ≤ b)
    (hb : b < s.length) (d d' : ℚ) : s.getD a d ≤ s.getD b d' := by
  have ha : a < s.length := lt_of_le_of_lt hab hb
  rw [List.getD_eq_getElem s d ha, List.getD_eq_getElem s d' hb]
  exact List.Sorted.rel_get_of_le hs (Fin.mk_le_mk.mpr hab)

lemma interp_delta_nonneg {s : List ℚ} (hs : s.Sorted (· ≤ ·)) (i : ℕ) :
    0 ≤ s.getD (i + 1) (s.getD i 0) - s.getD i 0 := by
  by_cases h : i + 1 < s.length
  · have := sorted_getD_mono hs (Nat.le_succ i) h 0 (s.getD i 0)
    linarith
  · rw [List.getD_eq_default _ _ (by omega)]
    simp

lemma interpAt_mono {s : List ℚ} (hs : s.Sorted (· ≤ ·)) {x y : ℚ}
    (hx : 0 ≤ x) (hxy : x ≤ y) (hy : y ≤ (s.length : ℚ) - 1) :
    interpAt s x ≤ interpAt s y := by
  have hy0 : 0 ≤ y := le_trans hx hxy
  have hcx : (((⌊x⌋).toNat : ℕ) : ℚ) = (⌊x⌋ : ℚ) := by
    exact_mod_cast Int.toNat_of_nonneg (Int.floor_nonneg.mpr hx)
  have hcy : (((⌊y⌋).toNat : ℕ) : ℚ) = (⌊y⌋ : ℚ) := by
    exact_mod_cast Int.toNat_of_nonneg (Int.floor_nonneg.mpr hy0)
  have hgx0 : 0 ≤ x - (((⌊x⌋).toNat : ℕ) : ℚ) := by
    rw [hcx]; exact sub_nonneg.mpr (Int.floor_le x)
  have hgx1 : x - (((⌊x⌋).toNat : ℕ) : ℚ) ≤ 1 := by
    rw [hcx]; have := Int.lt_floor_add_one x; linarith
  have hgy0 : 0 ≤ y - (((⌊y⌋).toNat : ℕ) : ℚ) := by
    rw [hcy]; exact sub_nonneg.mpr (Int.floor_le y)
  have hij : (⌊x⌋).toNat ≤ (⌊y⌋).toNat := Int.toNat_le_toNat (Int.floor_mono hxy)
  have hjlt : (⌊y⌋).toNat < s.length := by
    have h1 : (⌊y⌋ : ℚ) ≤ (s.length : ℚ) - 1 := le_trans (Int.floor_le y) hy
    have h2 : ⌊y⌋ ≤ (s.length : ℤ) - 1 := by exact_mod_cast h1
    have h3 : (0 : ℤ) ≤ ⌊y⌋ := Int.floor_nonneg.mpr hy0
    omega
  rw [interpAt, interpAt]
  by_cases hij' : (⌊x⌋).toNat = (⌊y⌋).toNat
  · rw [hij']
    have hd := interp_delta_nonneg hs (⌊y⌋).toNat
    have hgxy : x - (((⌊y⌋).toNat : ℕ) : ℚ) ≤ y - (((⌊y⌋).toNat : ℕ) : ℚ) := by linarith
    nlinarith [mul_le_mul_of_nonneg_right hgxy hd]
  · have hij2 : (⌊x⌋).toNat < (⌊y⌋).toNat := lt_of_le_of_ne hij hij'
    have hi1 : (⌊x⌋).toNat + 1 < s.length := lt_of_le_of_lt hij2 hjlt
    have hstep1 : interpAt s x ≤ s.getD ((⌊x⌋).toNat + 1) (s.getD (⌊x⌋).toNat 0) := by
      have hd := interp_delta_nonneg hs (⌊x⌋).toNat
      rw [interpAt]
      nlinarith
    have hstep2 : s.getD ((⌊x⌋).toNat + 1) (s.getD (⌊x⌋).toNat 0) ≤ s.getD (⌊y⌋).toNat 0 :=
      sorted_getD_mono hs hij2 hjlt _ _
    have hstep3 : s.getD (⌊y⌋).toNat 0 ≤ interpAt s y := by
      have hd := interp_delta_nonneg hs (⌊y⌋).toNat
      rw [interpAt]
      nlinarith
    rw [interpAt] at hstep1
    exact le_trans (le_trans hstep1 hstep2) hstep3

/-- The percentile cut-points are monotone in the rank: for a non-empty
history, `np.percentile(h, q1) <= np.percentile(h, q2)` when
`q1 <= q2 <= 99`. -/
lemma npPercentile_mono (hist : List ℚ) (hh : hist ≠ []) {q1 q2 : ℕ}
    (h12 : q1 ≤ q2) (h99 : q2 ≤ 99) :
    npPercentile hist q1 ≤ npPercentile hist q2 := by
  have hs : (hist.insertionSort (· ≤ ·)).Sorted (· ≤ ·) := List.sorted_insertionSort _ _
  have hlen : (hist.insertionSort (· ≤ ·)).length = hist.length :=
    (List.perm_insertionSort _ _).length_eq
  have hn : 1 ≤ (hist.insertionSort (· ≤ ·)).length := by
    rw [hlen]; exact List.length_pos.mpr hh
  have hn' : (1 : ℚ) ≤ ((hist.insertionSort (· ≤ ·)).length : ℚ) := by exact_mod_cast hn
  have he : (0 : ℚ) ≤ ((hist.insertionSort (· ≤ ·)).length : ℚ) - 1 := by linarith
  have hq12 : ((q1 : ℕ) : ℚ) ≤ ((q2 : ℕ) : ℚ) := by exact_mod_cast h12
  have hq99 : ((q2 : ℕ) : ℚ) ≤ 99 := by exact_mod_cast h99
  simp only [npPercentile]
  apply interpAt_mono hs
  · positivity
  · apply div_le_div_of_nonneg_right ?_ (by norm_num)
    exact mul_le_mul_of_nonneg_right hq12 he
  · rw [div_le_iff₀ (by norm_num : (0:ℚ) < 100)]
    nlinarith

/-- Every cut-point is at most the 99th cut-point. -/
lemma cutPoint_le_99 (hist : List ℚ) (hh : hist ≠ []) {q : ℕ} (hq : q < 100) :
    npPercentile hist q ≤ npPercentile hist 99 :=
  npPercentile_mono hist hh (by omega) (Nat.le_refl 99)

/-- A query at or above the 99th cut-point is strictly below no
cut-point at all, so the walk never dequeues it. -/
lemma findIdx?_cutPoints_none (hist : List ℚ) (hh : hist ≠ []) {v : ℚ}
    (hv : npPercentile hist 99 ≤ v) :
    (cutPoints hist).findIdx? (fun p => decide (v < p)) 0 = none := by
  rw [List.findIdx?_eq_none_iff]
  intro x hx
  rcases List.mem_map.mp hx with ⟨q, hq, rfl⟩
  have hq' : q < 100 := List.mem_range.mp hq
  simp only [decide_eq_false_iff_not, not_lt]
  exact le_trans (cutPoint_le_99 hist hh hq') hv

/-- A query strictly below the 99th cut-point is dequeued by the walk:
some cut-point is strictly above it. -/
lemma findIdx?_cutPoints_isSome (hist : List ℚ) {v : ℚ}
    (hv : v < npPercentile hist 99) :
    ∃ j, (cutPoints hist).findIdx? (fun p => decide (v < p)) 0 = some j := by
  cases hfi : (cutPoints hist).findIdx? (fun p => decide (v < p)) 0 with
  | some j => exact ⟨j, rfl⟩
  | none =>
      exfalso
      have hmem : npPercentile hist 99 ∈ cutPoints hist :=
        List.mem_map.mpr ⟨99, List.mem_range.mpr (by omega), rfl⟩
      have := (List.findIdx?_eq_none_iff.mp hfi) _ hmem
      simp only [decide_eq_false_iff_not, not_lt] at this
      exact absurd hv (not_lt.mpr this)

/-! ### History lemmas (deque with maxlen) -/

lemma dequeExtend_eq_takeLast (k : ℕ) (h new : List ℚ) :
    dequeExtend k h new = takeLast k (h ++ new) := rfl

lemma takeLast_length_le (k : ℕ) (l : List ℚ) : (takeLast k l).length ≤ k := by
  rw [takeLast, List.length_drop]
  omega

lemma takeLast_of_length_le {k : ℕ} {l : List ℚ} (h : l.length ≤ k) : takeLast k l = l := by
  rw [takeLast, Nat.sub_eq_zero_of_le h, List.drop_zero]

lemma takeLast_append_left (k : ℕ) (l xs : List ℚ) :
    takeLast k (takeLast k l ++ xs) = takeLast k (l ++ xs) := by
  unfold takeLast
  rw [List.length_append, List.length_drop, List.length_append,
    ← List.drop_append_of_le_length (by omega), List.drop_drop]
  congr 1
  omega

/-! ### Loop lemmas -/

/-- The accumulator invariant: after the loop, the two accumulator lists
have equal length, strictly below `batch_size`. -/
lemma sbpLoop_acc_inv {γ α β : Type} [Inhabited α] [Inhabited β] (cfg : SBPConfig γ α β)
    (data : List α) (targets : List β) (hB : 0 < cfg.batch_size) :
    ∀ (idxs : List ℕ) (selIn : List α) (selTgt : List β) (ebl : Option ℚ)
      (fires : List (List α × List β)),
      selIn.length = selTgt.length → selTgt.length < cfg.batch_size →
      (sbpLoop cfg data targets idxs selIn selTgt ebl fires).1.length =
        (sbpLoop cfg data targets idxs selIn selTgt ebl fires).2.1.length ∧
      (sbpLoop cfg data targets idxs selIn selTgt ebl fires).2.1.length < cfg.batch_size
  | [], selIn, selTgt, ebl, fires, hlen, hlt => ⟨hlen, hlt⟩
  | idx :: rest, selIn, selTgt, ebl, fires, hlen, hlt => by
      simp only [sbpLoop]
      by_cases hfull : (selTgt ++ [targets.getD idx default]).length = cfg.batch_size
      · rw [if_pos hfull]
        exact sbpLoop_acc_inv cfg data targets hB rest [] [] _ _ rfl hB
      · rw [if_neg hfull]
        refine sbpLoop_acc_inv cfg data targets hB rest _ _ _ _ ?_ ?_
        · simp [hlen]
        · rw [List.length_append] at hfull ⊢
          simp only [List.length_singleton] at hfull ⊢
          omega

/-- Return-value invariant: `effective_batch_loss` is `none` iff no fire
is logged, and otherwise carries the mean loss of the most recent fire. -/
lemma sbpLoop_ret_inv {γ α β : Type} [Inhabited α] [Inhabited β] (cfg : SBPConfig γ α β)
    (data : List α) (targets : List β) :
    ∀ (idxs : List ℕ) (selIn : List α) (selTgt : List β) (ebl : Option ℚ)
      (fires : List (List α × List β)),
      (fires = [] → ebl = none) →
      (∀ p, fires.getLast? = some p →
        ebl = some (listMean (cfg.compute_losses_func (cfg.model p.1) p.2))) →
      ((sbpLoop cfg data targets idxs selIn selTgt ebl fires).2.2.2 = [] →
        (sbpLoop cfg data targets idxs selIn selTgt ebl fires).2.2.1 = none) ∧
      (∀ p, (sbpLoop cfg data targets idxs selIn selTgt ebl fires).2.2.2.getLast? = some p →
        (sbpLoop cfg data targets idxs selIn selTgt ebl fires).2.2.1 =
          some (listMean (cfg.compute_losses_func (cfg.model p.1) p.2)))
  | [], selIn, selTgt, ebl, fires, h1, h2 => ⟨h1, h2⟩
  | idx :: rest, selIn, selTgt, ebl, fires, h1, h2 => by
      simp only [sbpLoop]
      by_cases hfull : (selTgt ++ [targets.getD idx default]).length = cfg.batch_size
      · rw [if_pos hfull]
        refine sbpLoop_ret_inv cfg data targets rest [] [] _ _ ?_ ?_
        · intro hnil
          exact absurd hnil (by simp)
        · intro p hp
          rw [List.getLast?_concat] at hp
          cases hp
          rfl
      · rw [if_neg hfull]
        exact sbpLoop_ret_inv cfg data targets rest _ _ _ _ h1 h2

/-- If too few indices remain to complete a mini-batch, the loop only
appends to the accumulator: no fire, unchanged return value. -/
lemma sbpLoop_nofire {γ α β : Type} [Inhabited α] [Inhabited β] (cfg : SBPConfig γ α β)
    (data : List α) (targets : List β) :
    ∀ (idxs : List ℕ) (selIn : List α) (selTgt : List β) (ebl : Option ℚ)
      (fires : List (List α × List β)),
      selIn.length = selTgt.length →
      selTgt.length + idxs.length < cfg.batch_size →
      sbpLoop cfg data targets idxs selIn selTgt ebl fires =
        (selIn ++ idxs.map (fun i => data.getD i default),
         selTgt ++ idxs.map (fun i => targets.getD i default), ebl, fires)
  | [], selIn, selTgt, ebl, fires, _, _ => by simp [sbpLoop]
  | idx :: rest, selIn, selTgt, ebl, fires, hlen, hlt => by
      simp only [sbpLoop]
      have hfull : ¬ (selTgt ++ [targets.getD idx default]).length = cfg.batch_size := by
        simp only [List.length_append, List.length_singleton, List.length_cons,
          List.length_nil] at hlt ⊢
        omega
      rw [if_neg hfull,
        sbpLoop_nofire cfg data targets rest _ _ ebl fires (by simp [hlen])
          (by simp only [List.length_append, List.length_singleton, List.length_cons,
                List.length_nil] at hlt ⊢
              omega)]
      simp

/-- If the remaining indices complete the mini-batch exactly, the loop
fires exactly once, with the stacked accumulator contents equal to the
prior accumulator followed by the selected examples in order, and leaves
the accumulator empty. -/
lemma sbpLoop_exactfire {γ α β : Type} [Inhabited α] [Inhabited β] (cfg : SBPConfig γ α β)
    (data : List α) (targets : List β) :
    ∀ (idxs : List ℕ) (selIn : List α) (selTgt : List β) (ebl : Option ℚ)
      (fires : List (List α × List β)),
      selIn.length = selTgt.length →
      selTgt.length < cfg.batch_size →
      selTgt.length + idxs.length = cfg.batch_size →
      sbpLoop cfg data targets idxs selIn selTgt ebl fires =
        ([], [],
         some (listMean (cfg.compute_losses_func
           (cfg.model (selIn ++ idxs.map (fun i => data.getD i default)))
           (selTgt ++ idxs.map (fun i => targets.getD i default)))),
         fires ++ [(selIn ++ idxs.map (fun i => data.getD i default),
                    selTgt ++ idxs.map (fun i => targets.getD i default))])
  | [], selIn, selTgt, ebl, fires, hlen, hlt, hsum => by
      exfalso
      simp only [List.length_nil] at hsum
      omega
  | idx :: rest, selIn, selTgt, ebl, fires, hlen, hlt, hsum => by
      simp only [sbpLoop]
      by_cases hfull : (selTgt ++ [targets.getD idx default]).length = cfg.batch_size
      · have hrest : rest = [] := by
          rw [List.length_append, List.length_singleton] at hfull
          rw [List.length_cons] at hsum
          exact List.length_eq_zero.mp (by omega)
        subst hrest
        rw [if_pos hfull]
        simp [sbpLoop]
      · rw [if_neg hfull]
        have hlt' : (selTgt ++ [targets.getD idx default]).length < cfg.batch_size := by
          rw [List.length_append, List.length_singleton]
          rw [List.length_cons] at hsum
          rw [List.length_append, List.length_singleton] at hfull
          omega
        rw [sbpLoop_exactfire cfg data targets rest _ _ ebl fires (by simp [hlen]) hlt'
          (by rw [List.length_append, List.length_singleton]
              rw [List.length_cons] at hsum
              omega)]
        simp

/-! ### Step-level lemmas -/

lemma callSelected_map_fst {γ α β : Type} [Inhabited α] [Inhabited β] (cfg : SBPConfig γ α β)
    (st : SBPState α β) (c : SBPCall α β) :
    (callSelected cfg st c).map Prod.fst =
      (stepSelectedIdx cfg st c).map (fun i => c.data.getD i default) := by
  rw [callSelected, List.map_map]
  rfl

lemma callSelected_map_snd {γ α β : Type} [Inhabited α] [Inhabited β] (cfg : SBPConfig γ α β)
    (st : SBPState α β) (c : SBPCall α β) :
    (callSelected cfg st c).map Prod.snd =
      (stepSelectedIdx cfg st c).map (fun i => c.targets.getD i default) := by
  rw [callSelected, List.map_map]
  rfl

lemma callSelected_length {γ α β : Type} [Inhabited α] [Inhabited β] (cfg : SBPConfig γ α β)
    (st : SBPState α β) (c : SBPCall α β) :
    (callSelected cfg st c).length = (stepSelectedIdx cfg st c).length := by
  rw [callSelected, List.length_map]

/-- A call whose selections do not complete the pending mini-batch:
no fire, `None` returned, accumulator extended in selection order. -/
lemma step_eq_nofire {γ α β : Type} [Inhabited α] [Inhabited β] (cfg : SBPConfig γ α β)
    (st : SBPState α β) (c : SBPCall α β) (S : List (α × β))
    (hin : st.selected_inputs = S.map Prod.fst) (htg : st.selected_targets = S.map Prod.snd)
    (hlt : S.length + (callSelected cfg st c).length < cfg.batch_size) :
    selective_back_propagation cfg st c =
      (⟨stepHist cfg st c, (S ++ callSelected cfg st c).map Prod.fst,
        (S ++ callSelected cfg st c).map Prod.snd⟩, [], none) := by
  rw [callSelected_length] at hlt
  rw [selective_back_propagation, hin, htg,
    sbpLoop_nofire cfg c.data c.targets _ _ _ none []
      (by rw [List.length_map, List.length_map])
      (by rw [List.length_map]; exact hlt)]
  rw [List.map_append, List.map_append, callSelected_map_fst, callSelected_map_snd]

/-- A call whose selections complete the pending mini-batch exactly:
one fire whose stacked contents are the prior accumulator followed by
this call's selections, the mean loss returned, accumulator cleared. -/
lemma step_eq_fire {γ α β : Type} [Inhabited α] [Inhabited β] (cfg : SBPConfig γ α β)
    (st : SBPState α β) (c : SBPCall α β) (S : List (α × β))
    (hin : st.selected_inputs = S.map Prod.fst) (htg : st.selected_targets = S.map Prod.snd)
    (hlt : S.length < cfg.batch_size)
    (heq : S.length + (callSelected cfg st c).length = cfg.batch_size) :
    selective_back_propagation cfg st c =
      (⟨stepHist cfg st c, [], []⟩,
       [((S ++ callSelected cfg st c).map Prod.fst,
         (S ++ callSelected cfg st c).map Prod.snd)],
       some (listMean (cfg.compute_losses_func
         (cfg.model ((S ++ callSelected cfg st c).map Prod.fst))
         ((S ++ callSelected cfg st c).map Prod.snd)))) := by
  rw [callSelected_length] at heq
  rw [selective_back_propagation, hin, htg,
    sbpLoop_exactfire cfg c.data c.targets _ _ _ none []
      (by rw [List.length_map, List.length_map])
      (by rw [List.length_map]; exact hlt)
      (by rw [List.length_map]; exact heq)]
  rw [List.map_append, List.map_append, callSelected_map_fst, callSelected_map_snd]
  rfl

/-! ### Run-level lemmas -/

/-- The history after a sequence of calls is the most recent
`batch_size * epoch_length` recorded values, in FIFO order. -/
lemma sbpRun_loss_hist {γ α β : Type} [Inhabited α] [Inhabited β] (cfg : SBPConfig γ α β) :
    ∀ (calls : List (SBPCall α β)) (st : SBPState α β),
      st.loss_hist.length ≤ cfg.batch_size * cfg.epoch_length →
      (sbpRun cfg st calls).1.loss_hist =
        takeLast (cfg.batch_size * cfg.epoch_length)
          (st.loss_hist ++ (calls.map (fun c => c.loss_per_img)).flatten)
  | [], st, hlen => by
      rw [sbpRun, List.map_nil, List.flatten_nil, List.append_nil,
        takeLast_of_length_le hlen]
  | c :: cs, st, hlen => by
      rw [sbpRun]
      have hstep : (selective_back_propagation cfg st c).1.loss_hist =
          dequeExtend (cfg.batch_size * cfg.epoch_length) st.loss_hist c.loss_per_img := rfl
      have hrec := sbpRun_loss_hist cfg cs (selective_back_propagation cfg st c).1
        (by rw [hstep, dequeExtend_eq_takeLast]; exact takeLast_length_le _ _)
      rw [hrec, hstep, dequeExtend_eq_takeLast, takeLast_append_left,
        List.map_cons, List.flatten_cons, List.append_assoc]

/-- A run in which every call selects nothing: no fires, accumulator
unchanged (empty). -/
lemma sbpRun_nosel {γ α β : Type} [Inhabited α] [Inhabited β] (cfg : SBPConfig γ α β) :
    ∀ (calls : List (SBPCall α β)) (st : SBPState α β),
      st.selected_inputs = [] → st.selected_targets = [] →
      sbpRunSelected cfg st calls = [] →
      (sbpRun cfg st calls).2 = [] ∧
      (sbpRun cfg st calls).1.selected_inputs = [] ∧
      (sbpRun cfg st calls).1.selected_targets = []
  | [], st, hin, htg, _ => ⟨rfl, hin, htg⟩
  | c :: cs, st, hin, htg, hsel => by
      rw [sbpRunSelected] at hsel
      rcases List.append_eq_nil.mp hsel with ⟨hsel1, hsel2⟩
      have hidx : stepSelectedIdx cfg st c = [] := by
        have hl := congrArg List.length hsel1
        rw [callSelected_length] at hl
        exact List.length_eq_zero.mp (by simpa using hl)
      have hstep : selective_back_propagation cfg st c =
          (⟨stepHist cfg st c, st.selected_inputs, st.selected_targets⟩, [], none) := by
        rw [selective_back_propagation, hidx]
        rfl
      have hrec := sbpRun_nosel cfg cs (selective_back_propagation cfg st c).1
        (by rw [hstep]; exact hin) (by rw [hstep]; exact htg) hsel2
      rw [sbpRun]
      refine ⟨?_, hrec.2.1, hrec.2.2⟩
      rw [hstep] at hrec ⊢
      rw [hrec.1, List.append_nil]

/-- Across a sequence of calls whose cumulative selections, starting
from an empty accumulator, number exactly `batch_size`: exactly one fire
occurs, its stacked contents are the selected examples in selection
order, and the accumulator is empty afterwards. -/
lemma sbpRun_exact {γ α β : Type} [Inhabited α] [Inhabited β] (cfg : SBPConfig γ α β)
    (hB : 0 < cfg.batch_size) :
    ∀ (calls : List (SBPCall α β)) (st : SBPState α β) (S : List (α × β)),
      st.selected_inputs = S.map Prod.fst → st.selected_targets = S.map Prod.snd →
      S.length < cfg.batch_size →
      S.length + (sbpRunSelected cfg st calls).length = cfg.batch_size →
      (sbpRun cfg st calls).2 =
        [((S ++ sbpRunSelected cfg st calls).map Prod.fst,
          (S ++ sbpRunSelected cfg st calls).map Prod.snd)] ∧
      (sbpRun cfg st calls).1.selected_inputs = [] ∧
      (sbpRun cfg st calls).1.selected_targets = []
  | [], st, S, hin, htg, hlt, hsum => by
      exfalso
      rw [sbpRunSelected] at hsum
      simp only [List.length_nil] at hsum
      omega
  | c :: cs, st, S, hin, htg, hlt, hsum => by
      rw [sbpRunSelected] at hsum ⊢
      rw [List.length_append] at hsum
      by_cases hcase : S.length + (callSelected cfg st c).length < cfg.batch_size
      · have hstep := step_eq_nofire cfg st c S hin htg hcase
        have hrec := sbpRun_exact cfg hB cs (selective_back_propagation cfg st c).1
          (S ++ callSelected cfg st c)
          (by rw [hstep]) (by rw [hstep])
          (by rw [List.length_append]; exact hcase)
          (by rw [List.length_append]; omega)
        simp only [sbpRun]
        refine ⟨?_, hrec.2.1, hrec.2.2⟩
        have hfires : (selective_back_propagation cfg st c).2.1 = [] := by rw [hstep]
        rw [hfires, List.nil_append, hrec.1, List.append_assoc]
      · have heq : S.length + (callSelected cfg st c).length = cfg.batch_size := by
          omega
        have hstep := step_eq_fire cfg st c S hin htg hlt heq
        have hrestnil : sbpRunSelected cfg (selective_back_propagation cfg st c).1 cs = [] :=
          List.length_eq_zero.mp (by omega)
        have hrest := sbpRun_nosel cfg cs (selective_back_propagation cfg st c).1
          (by rw [hstep]) (by rw [hstep]) hrestnil
        simp only [sbpRun]
        refine ⟨?_, hrest.2.1, hrest.2.2⟩
        have hfires : (selective_back_propagation cfg st c).2.1 =
            [((S ++ callSelected cfg st c).map Prod.fst,
              (S ++ callSelected cfg st c).map Prod.snd)] := by rw [hstep]
        rw [hfires, hrest.1, List.append_nil, hrestnil, List.append_nil]

lemma getD_zipWith_bool {f : ℚ → ℚ → Bool} {l1 l2 : List ℚ} {j : ℕ}
    (h1 : j < l1.length) (h2 : j < l2.length) :
    (List.zipWith f l1 l2).getD j false = f (l1.getD j 0) (l2.getD j 0) := by
  have hz : j < (List.zipWith f l1 l2).length := by
    rw [List.length_zipWith]; omega
  rw [List.getD_eq_getElem _ _ hz, List.getElem_zipWith,
    List.getD_eq_getElem _ _ h1, List.getD_eq_getElem _ _ h2]

/-! ### Claim theorems -/

/-- C1, counterexample: the percentile-rank computation is NOT monotone
as claimed.  With history `[0, 100]` and queries `[50, 99]`, the walk
assigns rank `0.51` to `50` but rank `0` to `99` (which is at the 99th
cut-point and is never dequeued), so `50 < 99` yet
`rank(50) > rank(99)`. -/
theorem C1_counterexample :
    ¬ (∀ (hist values : List ℚ), hist ≠ [] →
        ∀ p q : ℕ, p < values.length → q < values.length →
          values.getD p 0 < values.getD q 0 →
          (percentiles hist values).getD p 0 ≤ (percentiles hist values).getD q 0) := by
  intro h
  have h2 := h [0, 100] [50, 99] (by simp) 0 1 (by simp) (by simp)
    (by with_unfolding_all decide)
  have h3 : percentiles [0, 100] [50, 99] = [51 / 100, 0] := by with_unfolding_all rfl
  rw [h3] at h2
  norm_num [List.getD] at h2

/-- C1, amended: monotonicity does hold for queries strictly below the
99th percentile cut-point (the ones actually dequeued during the walk):
if `a < b` and `b` is below the 99th cut-point, then
`rank(a) <= rank(b)`. -/
theorem C1_amended_monotone (hist values : List ℚ) (_hh : hist ≠ []) (p q : ℕ)
    (hp : p < values.length) (hq : q < values.length)
    (hpq : values.getD p 0 < values.getD q 0)
    (hq99 : values.getD q 0 < npPercentile hist 99) :
    (percentiles hist values).getD p 0 ≤ (percentiles hist values).getD q 0 := by
  rw [percentiles_getD hist values hp, percentiles_getD hist values hq,
    percentilesArr_getD hist values hp, percentilesArr_getD hist values hq]
  rcases findIdx?_cutPoints_isSome hist hq99 with ⟨jq, hjq⟩
  have himp : ∀ a : ℚ, decide (values.getD q 0 < a) = true →
      decide (values.getD p 0 < a) = true := by
    intro a ha
    simp only [decide_eq_true_eq] at ha ⊢
    exact lt_trans hpq ha
  rcases findIdx?_mono himp (cutPoints hist) 0 jq hjq with ⟨jp, hjp, hle⟩
  rw [hjq, hjp]
  simp only [Option.getD_some]
  have hc : (jp : ℚ) ≤ (jq : ℚ) := by exact_mod_cast hle
  gcongr

theorem C1_amended_witness :
    (([0, 100] : List ℚ) ≠ [] ∧
      ([50, 60] : List ℚ).getD 0 0 < ([50, 60] : List ℚ).getD 1 0 ∧
      ([50, 60] : List ℚ).getD 1 0 < npPercentile [0, 100] 99) ∧
    (percentiles [0, 100] [50, 60]).getD 0 0 ≤ (percentiles [0, 100] [50, 60]).getD 1 0 :=
  ⟨⟨by simp, by with_unfolding_all decide, by with_unfolding_all decide⟩,
   C1_amended_monotone [0, 100] [50, 60] (by simp) 0 1 (by simp) (by simp)
     (by with_unfolding_all decide) (by with_unfolding_all decide)⟩

/-- C2: a query at or above the 99th percentile cut-point of a non-empty
history is never dequeued during the walk and keeps the default rank
`0`, so `_percentiles` returns `0` for it. -/
theorem C2_ceiling_rank_zero (hist values : List ℚ) (hh : hist ≠ [])
    (j : ℕ) (hj : j < values.length)
    (hge : npPercentile hist 99 ≤ values.getD j 0) :
    (percentiles hist values).getD j 0 = 0 := by
  rw [percentiles_getD hist values hj, percentilesArr_getD hist values hj,
    findIdx?_cutPoints_none hist hh hge]
  simp

theorem C2_witness :
    (([0, 100] : List ℚ) ≠ [] ∧ (1 : ℕ) < ([50, 99] : List ℚ).length ∧
      npPercentile [0, 100] 99 ≤ ([50, 99] : List ℚ).getD 1 0) ∧
    (percentiles [0, 100] [50, 99]).getD 1 0 = 0 :=
  ⟨⟨by simp, by simp, by with_unfolding_all decide⟩,
   C2_ceiling_rank_zero [0, 100] [50, 99] (by simp) 1 (by simp)
     (by with_unfolding_all decide)⟩

/-- C7: the selection probability of each example is the square of its
percentile rank, and every probability lies in `[0, 1]`. -/
theorem C7_probabilities (hist losses : List ℚ) (j : ℕ) (hj : j < losses.length) :
    (get_selection_probabilities hist losses).getD j 0 =
      ((percentiles hist losses).getD j 0) ^ 2 ∧
    0 ≤ (get_selection_probabilities hist losses).getD j 0 ∧
    (get_selection_probabilities hist losses).getD j 0 ≤ 1 := by
  have hplen : j < (percentiles hist losses).length := by
    rw [percentiles_length]; exact hj
  have h1 : (get_selection_probabilities hist losses).getD j 0 =
      ((percentiles hist losses).getD j 0) ^ 2 := by
    rw [get_selection_probabilities,
      List.getD_eq_getElem _ _ (by rw [List.length_map]; exact hplen),
      List.getElem_map, List.getD_eq_getElem _ _ hplen]
  refine ⟨h1, h1 ▸ sq_nonneg _, ?_⟩
  rw [h1, percentiles_getD hist losses hj]
  have hle := percentilesArr_getD_le hist losses hj
  have hle' : ((percentilesArr hist losses).getD j 0 : ℚ) ≤ 99 := by exact_mod_cast hle
  have h0 : (0 : ℚ) ≤ ((percentilesArr hist losses).getD j 0 : ℚ) / 100 := by positivity
  have h99 : ((percentilesArr hist losses).getD j 0 : ℚ) / 100 ≤ 1 := by
    rw [div_le_one (by norm_num : (0:ℚ) < 100)]
    linarith
  exact pow_le_one₀ h0 h99

theorem C7_witness :
    (0 : ℕ) < ([50, 99] : List ℚ).length ∧
    ((get_selection_probabilities [0, 100] [50, 99]).getD 0 0 =
        ((percentiles [0, 100] [50, 99]).getD 0 0) ^ 2 ∧
      0 ≤ (get_selection_probabilities [0, 100] [50, 99]).getD 0 0 ∧
      (get_selection_probabilities [0, 100] [50, 99]).getD 0 0 ≤ 1) :=
  ⟨by simp, C7_probabilities [0, 100] [50, 99] 0 (by simp)⟩

/-- C3: a call fires iff the update-invocation log is non-empty; when no
mini-batch fires the call returns `none` (Python `None`) and the update
function was never invoked, and when at least one fires the call
returns the mean unreduced loss of the most recent fire. -/
theorem C3_return_value {γ α β : Type} [Inhabited α] [Inhabited β]
    (cfg : SBPConfig γ α β) (st : SBPState α β) (c : SBPCall α β) :
    ((selective_back_propagation cfg st c).2.2 = none ↔
      (selective_back_propagation cfg st c).2.1 = []) ∧
    ∀ p, (selective_back_propagation cfg st c).2.1.getLast? = some p →
      (selective_back_propagation cfg st c).2.2 =
        some (listMean (cfg.compute_losses_func (cfg.model p.1) p.2)) := by
  have h := sbpLoop_ret_inv cfg c.data c.targets (stepSelectedIdx cfg st c)
    st.selected_inputs st.selected_targets none [] (fun _ => rfl)
    (fun p hp => by simp at hp)
  simp only [selective_back_propagation]
  refine ⟨⟨?_, h.1⟩, h.2⟩
  intro hnone
  by_contra hne
  have hsome := List.getLast?_isSome.mpr hne
  rcases Option.isSome_iff_exists.mp hsome with ⟨p, hp⟩
  have := h.2 p hp
  rw [hnone] at this
  exact Option.noConfusion this

theorem C3_witness :
    (selective_back_propagation sbpCfg0 (SBPState.initial ℚ ℚ) sbpCall0).2.1.getLast? =
      some ([10], [100]) ∧
    (selective_back_propagation sbpCfg0 (SBPState.initial ℚ ℚ) sbpCall0).2.2 =
      some (listMean (sbpCfg0.compute_losses_func (sbpCfg0.model [10]) [100])) :=
  ⟨by with_unfolding_all rfl,
   (C3_return_value sbpCfg0 (SBPState.initial ℚ ℚ) sbpCall0).2 ([10], [100])
     (by with_unfolding_all rfl)⟩

/-- C4: starting from construction, after any sequence of calls the
loss history never exceeds `batch_size * epoch_length` elements and
equals the most recently recorded values in FIFO order. -/
theorem C4_history_bound {γ α β : Type} [Inhabited α] [Inhabited β] (cfg : SBPConfig γ α β)
    (calls : List (SBPCall α β)) :
    (sbpRun cfg (SBPState.initial α β) calls).1.loss_hist.length ≤
      cfg.batch_size * cfg.epoch_length ∧
    (sbpRun cfg (SBPState.initial α β) calls).1.loss_hist =
      takeLast (cfg.batch_size * cfg.epoch_length)
        ((calls.map (fun c => c.loss_per_img)).flatten) := by
  have h := sbpRun_loss_hist cfg calls (SBPState.initial α β)
    (by rw [SBPState.initial]; simp)
  rw [SBPState.initial] at h
  simp only [List.nil_append] at h
  exact ⟨h ▸ takeLast_length_le _ _, h⟩

/-- C5: with a positive threshold `T` configured, the final mask is the
element-wise OR of the `raw loss > T` predicate with the probabilistic
decision; losses above `T` are always selected, and the threshold never
deselects a probabilistically selected example. -/
theorem C5_threshold_or (T : ℚ) (hT : 0 < T) (hist losses draws : List ℚ)
    (hd : draws.length = losses.length) (j : ℕ) (hj : j < losses.length) :
    selectionOf (some T) hist losses draws =
      List.zipWith (fun h s => h || s) (losses.map (fun l : ℚ => decide (T < l)))
        (probabilisticSelection (get_selection_probabilities hist losses) draws) ∧
    (T < losses.getD j 0 → (selectionOf (some T) hist losses draws).getD j false = true) ∧
    ((probabilisticSelection (get_selection_probabilities hist losses) draws).getD j false =
        true →
      (selectionOf (some T) hist losses draws).getD j false = true) := by
  have hor : selectionOf (some T) hist losses draws =
      List.zipWith (fun h s => h || s) (losses.map (fun l : ℚ => decide (T < l)))
        (probabilisticSelection (get_selection_probabilities hist losses) draws) := by
    rw [selectionOf, applyThreshold, if_neg hT.ne']
  have hmlen : (probabilisticSelection (get_selection_probabilities hist losses) draws).length =
      losses.length := by
    rw [probabilisticSelection, List.length_zipWith, get_selection_probabilities,
      List.length_map, percentiles_length, hd, min_self]
  have hjz : j < (List.zipWith (fun h s => h || s)
      (losses.map (fun l : ℚ => decide (T < l)))
      (probabilisticSelection (get_selection_probabilities hist losses) draws)).length := by
    rw [List.length_zipWith, List.length_map, hmlen, min_self]
    exact hj
  have hgetD : (selectionOf (some T) hist losses draws).getD j false =
      (decide (T < losses.getD j 0) ||
        (probabilisticSelection (get_selection_probabilities hist losses) draws).getD j
          false) := by
    rw [hor, List.getD_eq_getElem _ _ hjz, List.getElem_zipWith, List.getElem_map,
      List.getD_eq_getElem _ _ hj, List.getD_eq_getElem _ _ (hmlen ▸ hj)]
  refine ⟨hor, ?_, ?_⟩
  · intro hlt
    rw [hgetD, decide_eq_true hlt, Bool.true_or]
  · intro hsel
    rw [hgetD, hsel, Bool.or_true]

theorem C5_witness :
    ((0 : ℚ) < 1 ∧ ([1, 1] : List ℚ).length = ([2, 0] : List ℚ).length ∧
      (1 : ℚ) < ([2, 0] : List ℚ).getD 0 0) ∧
    (selectionOf (some 1) [0, 100] [2, 0] [1, 1]).getD 0 false = true :=
  ⟨⟨by norm_num, rfl, by with_unfolding_all decide⟩,
   (C5_threshold_or 1 (by norm_num) [0, 100] [2, 0] [1, 1] rfl 0 (by simp)).2.1
     (by with_unfolding_all decide)⟩

/-- C6: across any sequence of calls that cumulatively selects exactly
`batch_size` examples (starting from an empty accumulator), exactly one
fire occurs; its stacked inputs and targets are exactly the selected
examples in selection order, and the accumulator is empty afterwards. -/
theorem C6_exact_fire {γ α β : Type} [Inhabited α] [Inhabited β] (cfg : SBPConfig γ α β)
    (hB : 0 < cfg.batch_size) (st : SBPState α β) (calls : List (SBPCall α β))
    (hin : st.selected_inputs = []) (htg : st.selected_targets = [])
    (hsel : (sbpRunSelected cfg st calls).length = cfg.batch_size) :
    (sbpRun cfg st calls).2 =
      [((sbpRunSelected cfg st calls).map Prod.fst,
        (sbpRunSelected cfg st calls).map Prod.snd)] ∧
    (sbpRun cfg st calls).1.selected_inputs = [] ∧
    (sbpRun cfg st calls).1.selected_targets = [] := by
  have h := sbpRun_exact cfg hB calls st [] (by simpa using hin) (by simpa using htg)
    (by simpa using hB) (by simpa using hsel)
  simpa using h

theorem C6_witness :
    (0 < sbpCfg0.batch_size ∧
      (sbpRunSelected sbpCfg0 (SBPState.initial ℚ ℚ) [sbpCall0]).length =
        sbpCfg0.batch_size) ∧
    (sbpRun sbpCfg0 (SBPState.initial ℚ ℚ) [sbpCall0]).2 =
      [((sbpRunSelected sbpCfg0 (SBPState.initial ℚ ℚ) [sbpCall0]).map Prod.fst,
        (sbpRunSelected sbpCfg0 (SBPState.initial ℚ ℚ) [sbpCall0]).map Prod.snd)] ∧
    (sbpRun sbpCfg0 (SBPState.initial ℚ ℚ) [sbpCall0]).1.selected_inputs = [] ∧
    (sbpRun sbpCfg0 (SBPState.initial ℚ ℚ) [sbpCall0]).1.selected_targets = [] :=
  ⟨⟨by decide, by with_unfolding_all rfl⟩,
   C6_exact_fire sbpCfg0 (by decide) (SBPState.initial ℚ ℚ) [sbpCall0] rfl rfl
     (by with_unfolding_all rfl)⟩

/-- C8, counterexample: construction does NOT reject misconfiguration.
`batch_size = 0` (non-positive) with `epoch_length = 1` and threshold
`-1` (non-positive) is accepted: `__init__` performs no validation, and
`deque` only rejects a negative `maxlen`. -/
theorem C8_counterexample :
    ((0 : ℤ) ≤ 0 ∧ (-1 : ℚ) ≤ 0) ∧ (sbpInit 0 1 (some (-1))).isOk = true :=
  ⟨⟨le_refl 0, by norm_num⟩, by with_unfolding_all rfl⟩

/-- C8, amended: construction fails exactly when
`batch_size * epoch_length` is negative (CPython's `deque` raises
`ValueError` for a negative `maxlen`); every other configuration —
including zero or negative sizes with a non-negative product and any
threshold value — is accepted without validation. -/
theorem C8_amended_no_validation (b e : ℤ) (t : Option ℚ) :
    (sbpInit b e t).isOk = true ↔ 0 ≤ b * e := by
  rw [sbpInit, dequeNew]
  by_cases h : b * e < 0
  · rw [if_pos h]
    constructor
    · intro hok
      simp [Except.map, Except.isOk, Except.toBool] at hok
    · intro hge
      omega
  · rw [if_neg h]
    constructor
    · intro _
      omega
    · intro _
      simp [Except.map, Except.isOk, Except.toBool]

theorem C8_amended_witness : (sbpInit 2 3 none).isOk = true :=
  (C8_amended_no_validation 2 3 none).mpr (by norm_num)

/-- C9: an example with selection probability `0` (in particular one
with percentile rank `0`) is never chosen by the probabilistic decision
for any draw in `[0, 1)`, since selection requires
`probability > draw`; with no threshold configured its index is never
among the selected indices, so it is never added to the accumulator. -/
theorem C9_zero_probability_never_selected (hist losses draws : List ℚ) (j : ℕ)
    (hj : j < losses.length) (hd : draws.length = losses.length)
    (hprob : (get_selection_probabilities hist losses).getD j 0 = 0)
    (hdraw : 0 ≤ draws.getD j 0) :
    (probabilisticSelection (get_selection_probabilities hist losses) draws).getD j false =
      false ∧
    j ∉ argwhereIdx (selectionOf none hist losses draws) := by
  have hplen : (get_selection_probabilities hist losses).length = losses.length := by
    rw [get_selection_probabilities, List.length_map, percentiles_length]
  have hmask : (probabilisticSelection (get_selection_probabilities hist losses) draws).getD j
      false = false := by
    rw [probabilisticSelection,
      getD_zipWith_bool (by rw [hplen]; exact hj) (by rw [hd]; exact hj), hprob]
    simp only [decide_eq_false_iff_not, not_lt]
    exact hdraw
  refine ⟨hmask, ?_⟩
  intro hmem
  rcases List.mem_filter.mp hmem with ⟨_, hpred⟩
  rw [selectionOf, applyThreshold] at hpred
  rw [hmask] at hpred
  exact Bool.false_ne_true hpred

theorem C9_witness :
    ((1 : ℕ) < ([50, 99] : List ℚ).length ∧
      ([0, 0] : List ℚ).length = ([50, 99] : List ℚ).length ∧
      (get_selection_probabilities [0, 100] [50, 99]).getD 1 0 = 0 ∧
      (0 : ℚ) ≤ ([0, 0] : List ℚ).getD 1 0) ∧
    (1 : ℕ) ∉ argwhereIdx (selectionOf none [0, 100] [50, 99] [0, 0]) :=
  ⟨⟨by simp, rfl, by with_unfolding_all rfl, by with_unfolding_all decide⟩,
   (C9_zero_probability_never_selected [0, 100] [50, 99] [0, 0] 1 (by simp) rfl
     (by with_unfolding_all rfl) (by with_unfolding_all decide)).2⟩

/-- C10: the accumulator invariant — equal lengths, both strictly below
`batch_size` — holds for the initial state and is preserved by every
call. -/
theorem C10_accumulator_invariant {γ α β : Type} [Inhabited α] [Inhabited β]
    (cfg : SBPConfig γ α β) (hB : 0 < cfg.batch_size) :
    ((SBPState.initial α β).selected_inputs.length =
        (SBPState.initial α β).selected_targets.length ∧
      (SBPState.initial α β).selected_targets.length < cfg.batch_size) ∧
    ∀ (st : SBPState α β) (c : SBPCall α β),
      st.selected_inputs.length = st.selected_targets.length →
      st.selected_targets.length < cfg.batch_size →
      (selective_back_propagation cfg st c).1.selected_inputs.length =
        (selective_back_propagation cfg st c).1.selected_targets.length ∧
      (selective_back_propagation cfg st c).1.selected_targets.length < cfg.batch_size := by
  refine ⟨⟨rfl, hB⟩, ?_⟩
  intro st c hlen hlt
  simp only [selective_back_propagation]
  exact sbpLoop_acc_inv cfg c.data c.targets hB _ _ _ _ _ hlen hlt

theorem C10_witness :
    0 < sbpCfg0.batch_size ∧
    ((selective_back_propagation sbpCfg0 (SBPState.initial ℚ ℚ) sbpCall0).1.selected_inputs.length =
        (selective_back_propagation sbpCfg0 (SBPState.initial ℚ ℚ) sbpCall0).1.selected_targets.length ∧
      (selective_back_propagation sbpCfg0 (SBPState.initial ℚ ℚ) sbpCall0).1.selected_targets.length <
        sbpCfg0.batch_size) :=
  ⟨by decide,
   (C10_accumulator_invariant sbpCfg0 (by decide)).2 (SBPState.initial ℚ ℚ) sbpCall0 rfl
     (by decide)⟩

end SelectiveBackProp
